import Mathlib

/-!
Shallow embedding of the object-detection notebook's core logic: the batch
Intersection-over-Union (IoU) computation, greedy non-maximum suppression
(NMS), the check_batch_iou fixture checker and the draw_boxes rendering
filter.  Coordinates and probabilities are modelled as exact rationals.

The notebook leaves the bodies of batch_iou and non_maximum_suppression as
assignment stubs (their code regions read `...`), so those two functions are
modelled from the specification; the fixture checker and the rendering
filter are translated from the notebook source.
-/

namespace Yolos

/-- An axis-aligned box in the (left, top, right, bottom) format used by the
notebook, with real coordinates modelled as rationals. -/
structure Rect where
  left : ℚ
  top : ℚ
  right : ℚ
  bottom : ℚ
deriving DecidableEq

/-- Placeholder rectangle used for out-of-range list indexing. -/
def dRect : Rect := ⟨0, 0, 0, 0⟩

/-- Area of a rectangle, `(right - left) * (bottom - top)`. -/
def area (r : Rect) : ℚ := (r.right - r.left) * (r.bottom - r.top)

/-- Modelled from the spec: area of the intersection rectangle
`(max(left1,left2), max(top1,top2), min(right1,right2), min(bottom1,bottom2))`,
with each dimension clipped at 0 before multiplying. -/
def interArea (a b : Rect) : ℚ :=
  max (min a.right b.right - max a.left b.left) 0 *
    max (min a.bottom b.bottom - max a.top b.top) 0

/-- Modelled from the spec: union area is the sum of the two areas minus the
intersection area. -/
def unionArea (a b : Rect) : ℚ := area a + area b - interArea a b

/-- Modelled from the spec: IoU is intersection over union when the union
area is positive, and is defined to be 0 when the union area is zero. -/
def iou (a b : Rect) : ℚ :=
  if 0 < unionArea a b then interArea a b / unionArea a b else 0

/-- Modelled from the spec: the body of `batch_iou` is an assignment stub
(`...`) in the notebook, so the Box-Overlap Evaluator is taken from the
specification: one IoU per candidate, in candidate order. -/
def batch_iou (reference : Rect) (boxes : List Rect) : List ℚ :=
  boxes.map (iou reference)

/-- Objectness of a probability vector: one minus the last (background)
entry.  The empty vector is rejected by input validation before this is
ever used. -/
def objectness (p : List ℚ) : ℚ := 1 - p.getLastD 0

/-- Modelled from the spec: a candidate survives a suppression pass against
the popped box exactly when its IoU with the popped box does not strictly
exceed the threshold. -/
def survives (t : ℚ) (popped cand : Rect) : Bool := !decide (t < iou popped cand)

/-- Fuelled greedy suppression pass over a list of candidate indices: pop
the first index, keep it, drop every remaining index whose box has IoU
strictly above the threshold with the popped box, and recurse. -/
def nmsKeepFuel (b : ℕ → Rect) (t : ℚ) : ℕ → List ℕ → List ℕ
  | 0, _ => []
  | _, [] => []
  | fuel + 1, i :: rest =>
      i :: nmsKeepFuel b t fuel (rest.filter fun j => survives t (b i) (b j))

/-- Modelled from the spec: the greedy NMS loop, run with enough fuel for
the whole index list. -/
def nmsKeep (b : ℕ → Rect) (t : ℚ) (l : List ℕ) : List ℕ :=
  nmsKeepFuel b t l.length l

/-- Insert an index into a descending-key sorted index list, after every
index with a strictly larger key and before the rest, so that ties keep
original order for a head-first insertion sort. -/
def insertDesc (key : ℕ → ℚ) (i : ℕ) : List ℕ → List ℕ
  | [] => [i]
  | j :: l => if key i < key j then j :: insertDesc key i l else i :: j :: l

/-- Modelled from the spec: stable sort of candidate indices by descending
key (objectness), ties broken by original input order. -/
def sortDesc (key : ℕ → ℚ) : List ℕ → List ℕ
  | [] => []
  | i :: l => insertDesc key i (sortDesc key l)

/-- The index list kept by NMS: all input positions, stably sorted by
descending objectness, then run through the greedy suppression pass. -/
def keptIndices (boxes : List Rect) (probs : List (List ℚ)) (t : ℚ) : List ℕ :=
  nmsKeep (fun i => boxes.getD i dRect) t
    (sortDesc (fun i => objectness (probs.getD i [])) (List.range probs.length))

/-- Failure condition of non_maximum_suppression. -/
inductive NmsError where
  | invalidInput
deriving DecidableEq

/-- Modelled from the spec: the input validation of non_maximum_suppression.
Boxes and probability vectors must have equal lengths, the IoU threshold
must lie in (0, 1], and every probability vector must have at least one
entry (the background slot). -/
def validInput (boxes : List Rect) (probs : List (List ℚ)) (t : ℚ) : Prop :=
  boxes.length = probs.length ∧ (0 < t ∧ t ≤ 1) ∧ ∀ p ∈ probs, 1 ≤ p.length

instance (boxes : List Rect) (probs : List (List ℚ)) (t : ℚ) :
    Decidable (validInput boxes probs t) := by
  unfold validInput; infer_instance

/-- Modelled from the spec: the body of `non_maximum_suppression` is an
assignment stub (`...`) in the notebook, so the Greedy Suppressor is taken
from the specification: validate the input, stably sort indices by
descending objectness, run the greedy pass, and project boxes and
probability vectors at the kept indices. -/
def non_maximum_suppression (boxes : List Rect) (probs : List (List ℚ))
    (iou_threshold : ℚ) : Except NmsError (List Rect × List (List ℚ)) :=
  if validInput boxes probs iou_threshold then
    Except.ok
      ((keptIndices boxes probs iou_threshold).map (fun i => boxes.getD i dRect),
        (keptIndices boxes probs iou_threshold).map (fun i => probs.getD i []))
  else
    Except.error NmsError.invalidInput

/-- The fixture reference box of check_batch_iou. -/
def fixtureReference : Rect := ⟨0, 0, 4, 6⟩

/-- The fixture candidate boxes of check_batch_iou. -/
def fixtureBoxes : List Rect :=
  [⟨0, 0, 4, 4⟩, ⟨-2, -2, 2, 2⟩, ⟨-4, -4, 0, 0⟩, ⟨-6, -6, -2, -2⟩]

/-- The ground-truth IoU values of the check_batch_iou fixture. -/
def iou_gt : List ℚ := [2 / 3, 1 / 9, 0, 0]

/-- The fixture checker from the notebook: reject any result that is not a
flat length-4 sequence, then reject any entry further than 1e-6 from the
ground truth; otherwise accept. -/
def check_batch_iou (fn : Rect → List Rect → List ℚ) : Bool :=
  let result := fn fixtureReference fixtureBoxes
  if result.length = 4 then
    (List.range 4).all fun i => |result.getD i 0 - iou_gt.getD i 0| ≤ 1e-6
  else
    false

/-- The visualization-layer confidence cutoff from the notebook. -/
def CONFIDENCE_THRESHOLD : ℚ := 1 / 2

/-- The maximum entry of a probability vector together with the index of its
first occurrence, as returned by the tensor max over the last dimension;
none on the empty vector (on which the notebook's tensor max would fail). -/
def maxWithIdx : List ℚ → Option (ℚ × ℕ)
  | [] => none
  | x :: l =>
    match maxWithIdx l with
    | none => some (x, 0)
    | some (m, i) => if x < m then some (m, i + 1) else some (x, 0)

/-- The per-detection rendering decision of draw_boxes: skip when the best
score is below CONFIDENCE_THRESHOLD, skip when the best label is the
hard-coded background index 91, otherwise draw. -/
def rendered (p : List ℚ) : Bool :=
  match maxWithIdx p with
  | none => false
  | some (score, label) =>
    if score < CONFIDENCE_THRESHOLD then false
    else if label = 91 then false
    else true

/-- The detections drawn by draw_boxes: the zip of probability vectors and
boxes, filtered by the rendering decision. -/
def draw_boxes (boxes : List Rect) (probs : List (List ℚ)) : List (List ℚ × Rect) :=
  (probs.zip boxes).filter fun pb => rendered pb.1

/-- The maximum entry of a probability vector, 0 for the empty vector. -/
def maxVal : List ℚ → ℚ
  | [] => 0
  | [x] => x
  | x :: y :: l => max x (maxVal (y :: l))

/-- The index of the first occurrence of the maximum entry. -/
def argmaxIdx (p : List ℚ) : ℕ := p.findIdx fun x => decide (x = maxVal p)

theorem interArea_nonneg (a b : Rect) : 0 ≤ interArea a b :=
  mul_nonneg (le_max_right _ _) (le_max_right _ _)

theorem interArea_comm (a b : Rect) : interArea a b = interArea b a := by
  unfold interArea
  rw [min_comm, max_comm a.left, min_comm a.bottom, max_comm a.top]

theorem unionArea_comm (a b : Rect) : unionArea a b = unionArea b a := by
  unfold unionArea
  rw [interArea_comm]; ring

theorem iou_comm (a b : Rect) : iou a b = iou b a := by
  unfold iou
  rw [interArea_comm, unionArea_comm]

theorem clipped_mul_le (x y u v : ℚ) (hxu : x ≤ u) (hyv : y ≤ v)
    (h : 0 < max x 0 * max y 0) : max x 0 * max y 0 ≤ u * v := by
  have hx : 0 < x := by
    by_contra hx
    push_neg at hx
    rw [max_eq_right hx, zero_mul] at h
    exact lt_irrefl 0 h
  have hy : 0 < y := by
    by_contra hy
    push_neg at hy
    rw [max_eq_right hy, mul_zero] at h
    exact lt_irrefl 0 h
  rw [max_eq_left hx.le, max_eq_left hy.le]
  exact mul_le_mul hxu hyv hy.le (hx.le.trans hxu)

theorem interArea_le_area_left (a b : Rect) (h : 0 < interArea a b) :
    interArea a b ≤ area a :=
  clipped_mul_le _ _ _ _
    (sub_le_sub (min_le_left _ _) (le_max_left _ _))
    (sub_le_sub (min_le_left _ _) (le_max_left _ _)) h

theorem interArea_le_area_right (a b : Rect) (h : 0 < interArea a b) :
    interArea a b ≤ area b := by
  rw [interArea_comm]
  exact interArea_le_area_left b a (interArea_comm a b ▸ h)

theorem iou_nonneg (a b : Rect) : 0 ≤ iou a b := by
  unfold iou
  split
  · exact div_nonneg (interArea_nonneg a b) (by linarith)
  · exact le_refl 0

theorem iou_le_one (a b : Rect) : iou a b ≤ 1 := by
  unfold iou
  split
  · rename_i hu
    rcases (interArea_nonneg a b).lt_or_eq with hi | hi
    · rw [div_le_one hu]
      have h1 := interArea_le_area_left a b hi
      have h2 := interArea_le_area_right a b hi
      unfold unionArea at *
      linarith
    · rw [← hi, zero_div]
      norm_num
  · norm_num

/-- C6: batch_iou returns exactly one value per candidate, in the same order
as the candidates, and every returned value lies in the closed interval
[0, 1]. -/
theorem batch_iou_bounded (reference : Rect) (boxes : List Rect) :
    (batch_iou reference boxes).length = boxes.length ∧
      (∀ (i : ℕ), i < boxes.length →
        (batch_iou reference boxes).getD i 0 = iou reference (boxes.getD i dRect)) ∧
      ∀ x ∈ batch_iou reference boxes, 0 ≤ x ∧ x ≤ 1 := by
  refine ⟨by simp [batch_iou], fun i hi => ?_, fun x hx => ?_⟩
  · rw [List.getD_eq_getElem _ _ (by simpa [batch_iou] using hi),
      List.getD_eq_getElem _ _ hi]
    simp [batch_iou]
  · obtain ⟨b, _, rfl⟩ := List.mem_map.mp hx
    exact ⟨iou_nonneg reference b, iou_le_one reference b⟩

/-- Witness for C6: the bound evaluated on a concrete degenerate pair. -/
theorem batch_iou_bounded_witness : 0 ≤ (0 : ℚ) ∧ (0 : ℚ) ≤ 1 :=
  (batch_iou_bounded dRect [dRect]).2.2 0
    (by simp [batch_iou, iou, unionArea, interArea, area, dRect])

/-- C8: IoU as computed by batch_iou is symmetric in the two rectangles. -/
theorem batch_iou_symmetric (a b : Rect) :
    (batch_iou a [b]).getD 0 0 = (batch_iou b [a]).getD 0 0 := by
  simp [batch_iou, iou_comm]

/-- C2: on the course fixture, batch_iou returns the length-4 sequence
[2/3, 1/9, 0, 0] exactly, hence within 1e-6 of the ground truth. -/
theorem batch_iou_fixture_values :
    batch_iou fixtureReference fixtureBoxes = [2 / 3, 1 / 9, 0, 0] ∧
      (batch_iou fixtureReference fixtureBoxes).length = 4 ∧
      |(batch_iou fixtureReference fixtureBoxes).getD 0 0 - 2 / 3| ≤ 1e-6 ∧
      |(batch_iou fixtureReference fixtureBoxes).getD 1 0 - 1 / 9| ≤ 1e-6 ∧
      |(batch_iou fixtureReference fixtureBoxes).getD 2 0 - 0| ≤ 1e-6 ∧
      |(batch_iou fixtureReference fixtureBoxes).getD 3 0 - 0| ≤ 1e-6 := by
  have h : batch_iou fixtureReference fixtureBoxes = [2 / 3, 1 / 9, 0, 0] := by
    norm_num [batch_iou, iou, unionArea, interArea, area, fixtureReference,
      fixtureBoxes]
  refine ⟨h, ?_, ?_, ?_, ?_, ?_⟩ <;> rw [h] <;> norm_num

/-- C5: batch_iou never hits a division error: each entry equals
intersection over union whenever the union area is positive, and is 0
whenever the union area is zero. -/
theorem batch_iou_degenerate_safe (reference : Rect) (boxes : List Rect)
    (i : ℕ) (hi : i < boxes.length) :
    (0 < unionArea reference (boxes.getD i dRect) →
      (batch_iou reference boxes).getD i 0 =
        interArea reference (boxes.getD i dRect) /
          unionArea reference (boxes.getD i dRect)) ∧
    (unionArea reference (boxes.getD i dRect) = 0 →
      (batch_iou reference boxes).getD i 0 = 0) := by
  have h : (batch_iou reference boxes).getD i 0 =
      iou reference (boxes.getD i dRect) := by
    rw [List.getD_eq_getElem _ _ (by simpa [batch_iou] using hi),
      List.getD_eq_getElem _ _ hi]
    simp [batch_iou]
  refine ⟨fun hu => ?_, fun hu => ?_⟩
  · rw [h]
    unfold iou
    rw [if_pos hu]
  · rw [h]
    unfold iou
    rw [if_neg (by rw [hu]; exact lt_irrefl 0)]

/-- Witness for C5: two degenerate boxes with zero union area give IoU 0. -/
theorem batch_iou_degenerate_safe_witness :
    (batch_iou dRect [dRect]).getD 0 0 = 0 :=
  (batch_iou_degenerate_safe dRect [dRect] 0 (by simp)).2
    (by simp [unionArea, interArea, area, dRect])

theorem survives_iff (t : ℚ) (a b : Rect) :
    survives t a b = true ↔ iou a b ≤ t := by
  simp [survives, not_lt]

theorem nmsKeepFuel_sublist (b : ℕ → Rect) (t : ℚ) :
    ∀ (fuel : ℕ) (l : List ℕ), List.Sublist (nmsKeepFuel b t fuel l) l
  | 0, l => by simp [nmsKeepFuel]
  | _ + 1, [] => by simp [nmsKeepFuel]
  | fuel + 1, i :: rest => by
    simp only [nmsKeepFuel]
    exact ((nmsKeepFuel_sublist b t fuel _).trans (List.filter_sublist _)).cons₂ i

theorem nmsKeepFuel_pairwise (b : ℕ → Rect) (t : ℚ) :
    ∀ (fuel : ℕ) (l : List ℕ),
      (nmsKeepFuel b t fuel l).Pairwise fun i j => iou (b i) (b j) ≤ t
  | 0, l => by simp [nmsKeepFuel]
  | _ + 1, [] => by simp [nmsKeepFuel]
  | fuel + 1, i :: rest => by
    simp only [nmsKeepFuel]
    refine List.Pairwise.cons (fun j hj => ?_) (nmsKeepFuel_pairwise b t fuel _)
    have hj' := (nmsKeepFuel_sublist b t fuel _).subset hj
    exact (survives_iff t (b i) (b j)).mp (List.mem_filter.mp hj').2

theorem nmsKeepFuel_of_pairwise (b : ℕ → Rect) (t : ℚ) :
    ∀ (fuel : ℕ) (l : List ℕ), l.length ≤ fuel →
      (l.Pairwise fun i j => iou (b i) (b j) ≤ t) → nmsKeepFuel b t fuel l = l
  | 0, l, hlen, _ => by
    rw [List.length_eq_zero.mp (Nat.le_zero.mp hlen)]
    simp [nmsKeepFuel]
  | _ + 1, [], _, _ => by simp [nmsKeepFuel]
  | fuel + 1, i :: rest, hlen, hpw => by
    rw [List.pairwise_cons] at hpw
    have hfilter : rest.filter (fun j => survives t (b i) (b j)) = rest :=
      List.filter_eq_self.mpr fun j hj => (survives_iff t (b i) (b j)).mpr (hpw.1 j hj)
    simp only [nmsKeepFuel, hfilter]
    rw [nmsKeepFuel_of_pairwise b t fuel rest (Nat.lt_succ_iff.mp hlen) hpw.2]

theorem insertDesc_perm (key : ℕ → ℚ) (i : ℕ) :
    ∀ l : List ℕ, (insertDesc key i l).Perm (i :: l)
  | [] => List.Perm.refl _
  | j :: l => by
    simp only [insertDesc]
    split
    · exact ((insertDesc_perm key i l).cons j).trans (List.Perm.swap i j l)
    · exact List.Perm.refl _

theorem sortDesc_perm (key : ℕ → ℚ) :
    ∀ l : List ℕ, (sortDesc key l).Perm l
  | [] => List.Perm.refl _
  | i :: l => by
    simp only [sortDesc]
    exact (insertDesc_perm key i _).trans ((sortDesc_perm key l).cons i)

theorem insertDesc_pairwise (key : ℕ → ℚ) (i : ℕ) :
    ∀ l : List ℕ, (∀ j ∈ l, i < j) →
      (l.Pairwise fun a c => key c < key a ∨ (key a = key c ∧ a < c)) →
      (insertDesc key i l).Pairwise
        fun a c => key c < key a ∨ (key a = key c ∧ a < c)
  | [], _, _ => List.pairwise_singleton _ i
  | j :: l, hlt, hpw => by
    rw [List.pairwise_cons] at hpw
    simp only [insertDesc]
    split
    · rename_i hkey
      refine List.Pairwise.cons (fun x hx => ?_) ?_
      · rcases List.mem_cons.mp ((insertDesc_perm key i l).mem_iff.mp hx) with rfl | hx'
        · exact Or.inl hkey
        · exact hpw.1 x hx'
      · exact insertDesc_pairwise key i l (fun x hx => hlt x (List.mem_cons_of_mem j hx)) hpw.2
    · rename_i hkey
      push_neg at hkey
      refine List.Pairwise.cons (fun x hx => ?_) (List.pairwise_cons.mpr hpw)
      rcases List.mem_cons.mp hx with rfl | hx'
      · rcases hkey.lt_or_eq with h' | h'
        · exact Or.inl h'
        · exact Or.inr ⟨h'.symm, hlt x (List.mem_cons_self x l)⟩
      · rcases hpw.1 x hx' with h' | h'
        · exact Or.inl (h'.trans_le hkey)
        · rcases hkey.lt_or_eq with h'' | h''
          · exact Or.inl (h'.1 ▸ h'')
          · exact Or.inr ⟨h''.symm.trans h'.1, (hlt j (List.mem_cons_self j l)).trans h'.2⟩

theorem sortDesc_pairwise (key : ℕ → ℚ) :
    ∀ l : List ℕ, l.Pairwise (· < ·) →
      (sortDesc key l).Pairwise fun a c => key c < key a ∨ (key a = key c ∧ a < c)
  | [], _ => List.Pairwise.nil
  | i :: l, hpw => by
    rw [List.pairwise_cons] at hpw
    simp only [sortDesc]
    exact insertDesc_pairwise key i _
      (fun j hj => hpw.1 j ((sortDesc_perm key l).mem_iff.mp hj))
      (sortDesc_pairwise key l hpw.2)

theorem sortDesc_fix (key : ℕ → ℚ) :
    ∀ l : List ℕ, (l.Pairwise fun a c => key c ≤ key a) → sortDesc key l = l
  | [], _ => rfl
  | i :: l, hpw => by
    rw [List.pairwise_cons] at hpw
    simp only [sortDesc, sortDesc_fix key l hpw.2]
    cases l with
    | nil => rfl
    | cons j l' =>
      simp only [insertDesc,
        if_neg (not_lt.mpr (hpw.1 j (List.mem_cons_self j l')))]

theorem map_getD_range {α : Type} (d : α) (l : List α) :
    (List.range l.length).map (fun i => l.getD i d) = l := by
  apply List.ext_getElem
  · simp
  · intro i h1 h2
    simp only [List.getElem_map, List.getElem_range]
    exact List.getD_eq_getElem l d h2

theorem keptIndices_pairwise_key (boxes : List Rect) (probs : List (List ℚ))
    (t : ℚ) :
    (keptIndices boxes probs t).Pairwise fun i j =>
      objectness (probs.getD j []) < objectness (probs.getD i []) ∨
        (objectness (probs.getD i []) = objectness (probs.getD j []) ∧ i < j) := by
  unfold keptIndices nmsKeep
  exact List.Pairwise.sublist (nmsKeepFuel_sublist _ _ _ _)
    (sortDesc_pairwise _ _ (List.pairwise_lt_range _))

theorem keptIndices_pairwise_iou (boxes : List Rect) (probs : List (List ℚ))
    (t : ℚ) :
    (keptIndices boxes probs t).Pairwise fun i j =>
      iou (boxes.getD i dRect) (boxes.getD j dRect) ≤ t := by
  unfold keptIndices nmsKeep
  exact nmsKeepFuel_pairwise _ _ _ _

theorem keptIndices_mem_lt (boxes : List Rect) (probs : List (List ℚ)) (t : ℚ)
    (i : ℕ) (hi : i ∈ keptIndices boxes probs t) : i < probs.length := by
  unfold keptIndices nmsKeep at hi
  have h1 := (nmsKeepFuel_sublist _ _ _ _).subset hi
  have h2 := (sortDesc_perm _ _).mem_iff.mp h1
  simpa using h2

theorem nms_ok_iff (boxes : List Rect) (probs : List (List ℚ)) (t : ℚ)
    (kb : List Rect) (kp : List (List ℚ)) :
    non_maximum_suppression boxes probs t = Except.ok (kb, kp) ↔
      validInput boxes probs t ∧
        kb = (keptIndices boxes probs t).map (fun i => boxes.getD i dRect) ∧
        kp = (keptIndices boxes probs t).map (fun i => probs.getD i []) := by
  unfold non_maximum_suppression
  split
  · rename_i hv
    simp only [Except.ok.injEq, Prod.mk.injEq]
    constructor
    · rintro ⟨h1, h2⟩
      exact ⟨hv, h1.symm, h2.symm⟩
    · rintro ⟨-, h1, h2⟩
      exact ⟨h1.symm, h2.symm⟩
  · rename_i hv
    simp [hv]

/-- C1: on every accepted input, any two distinct kept detections have
pairwise IoU at most the threshold, and the per-pass removal rule is a
strict greater-than, so a candidate whose IoU with the popped box is
exactly the threshold survives the pass. -/
theorem nms_kept_pairwise_iou (boxes : List Rect) (probs : List (List ℚ))
    (t : ℚ) (kb : List Rect) (kp : List (List ℚ))
    (h : non_maximum_suppression boxes probs t = Except.ok (kb, kp)) :
    (∀ p q : ℕ, p ≠ q → p < kb.length → q < kb.length →
      iou (kb.getD p dRect) (kb.getD q dRect) ≤ t) ∧
    (∀ a b : Rect, iou a b = t → survives t a b = true) := by
  obtain ⟨-, hkb, -⟩ := (nms_ok_iff boxes probs t kb kp).mp h
  have hpw := keptIndices_pairwise_iou boxes probs t
  refine ⟨fun p q hne hp hq => ?_, fun a b hab => (survives_iff t a b).mpr hab.le⟩
  subst hkb
  have hp' : p < (keptIndices boxes probs t).length := by simpa using hp
  have hq' : q < (keptIndices boxes probs t).length := by simpa using hq
  rw [List.getD_eq_getElem _ _ hp, List.getD_eq_getElem _ _ hq]
  simp only [List.getElem_map]
  rcases Nat.lt_or_ge p q with hlt | hge
  · exact List.pairwise_iff_getElem.mp hpw p q hp' hq' hlt
  · have hlt : q < p := hge.lt_of_ne (Ne.symm hne)
    rw [iou_comm]
    exact List.pairwise_iff_getElem.mp hpw q p hq' hp' hlt

/-- C3: non_maximum_suppression fails with InvalidInput exactly when the
box and probability lists have different lengths, the threshold lies
outside (0, 1], or some probability vector is shorter than 1; on all other
inputs it returns a result. -/
theorem nms_invalid_input_iff (boxes : List Rect) (probs : List (List ℚ))
    (t : ℚ) :
    (non_maximum_suppression boxes probs t = Except.error NmsError.invalidInput ↔
      (boxes.length ≠ probs.length ∨ ¬(0 < t ∧ t ≤ 1) ∨ ∃ p ∈ probs, p.length < 1)) ∧
    ((boxes.length = probs.length ∧ (0 < t ∧ t ≤ 1) ∧ ∀ p ∈ probs, 1 ≤ p.length) →
      ∃ out, non_maximum_suppression boxes probs t = Except.ok out) := by
  have hval : ¬ validInput boxes probs t ↔
      (boxes.length ≠ probs.length ∨ ¬(0 < t ∧ t ≤ 1) ∨ ∃ p ∈ probs, p.length < 1) := by
    unfold validInput
    constructor
    · intro hnv
      by_contra hc
      push_neg at hc
      exact hnv ⟨hc.1, hc.2.1, fun p hp => by have := hc.2.2 p hp; omega⟩
    · rintro (h' | h' | ⟨p, hp, h'⟩) ⟨h1, h2, h3⟩
      · exact h' h1
      · exact h' h2
      · exact absurd (h3 p hp) (by omega)
  constructor
  · unfold non_maximum_suppression
    split
    · rename_i hv
      constructor
      · intro habs
        exact absurd habs (by simp)
      · intro hd
        exact absurd hv (hval.mpr hd)
    · rename_i hv
      constructor
      · intro _
        exact hval.mp hv
      · intro _
        rfl
  · intro hc
    unfold non_maximum_suppression
    rw [if_pos (show validInput boxes probs t from hc)]
    exact ⟨_, rfl⟩

/-- C4: on every accepted input the output is the projection of the original
boxes and probability vectors at the kept indices, the kept indices are in
descending objectness order with ties broken by original input order
(stable sort), and the output is never longer than the input. -/
theorem nms_output_projection (boxes : List Rect) (probs : List (List ℚ))
    (t : ℚ) (kb : List Rect) (kp : List (List ℚ))
    (h : non_maximum_suppression boxes probs t = Except.ok (kb, kp)) :
    kb = (keptIndices boxes probs t).map (fun i => boxes.getD i dRect) ∧
    kp = (keptIndices boxes probs t).map (fun i => probs.getD i []) ∧
    (∀ i ∈ keptIndices boxes probs t, i < boxes.length) ∧
    (keptIndices boxes probs t).Pairwise
      (fun i j => objectness (probs.getD j []) < objectness (probs.getD i []) ∨
        (objectness (probs.getD i []) = objectness (probs.getD j []) ∧ i < j)) ∧
    kb.length ≤ boxes.length := by
  obtain ⟨hv, hkb, hkp⟩ := (nms_ok_iff boxes probs t kb kp).mp h
  have hmem : ∀ i ∈ keptIndices boxes probs t, i < boxes.length := by
    intro i hi
    rw [hv.1]
    exact keptIndices_mem_lt boxes probs t i hi
  refine ⟨hkb, hkp, hmem, keptIndices_pairwise_key boxes probs t, ?_⟩
  have hlen : (keptIndices boxes probs t).length ≤ probs.length := by
    unfold keptIndices nmsKeep
    refine le_trans (nmsKeepFuel_sublist _ _ _ _).length_le ?_
    rw [(sortDesc_perm _ _).length_eq, List.length_range]
  rw [hkb, List.length_map, hv.1]
  exact hlen

/-- C7: non_maximum_suppression is idempotent: applying it to its own
output with the same threshold returns that output unchanged. -/
theorem nms_idempotent (boxes : List Rect) (probs : List (List ℚ)) (t : ℚ)
    (kb : List Rect) (kp : List (List ℚ))
    (h : non_maximum_suppression boxes probs t = Except.ok (kb, kp)) :
    non_maximum_suppression kb kp t = Except.ok (kb, kp) := by
  obtain ⟨hv, hkb, hkp⟩ := (nms_ok_iff boxes probs t kb kp).mp h
  have hlen_kb : kb.length = (keptIndices boxes probs t).length := by
    rw [hkb, List.length_map]
  have hlen_kp : kp.length = (keptIndices boxes probs t).length := by
    rw [hkp, List.length_map]
  have hkb_get : ∀ (r : ℕ) (hr : r < (keptIndices boxes probs t).length),
      kb.getD r dRect = boxes.getD (keptIndices boxes probs t)[r] dRect := by
    intro r hr
    rw [hkb, List.getD_eq_getElem _ _ (by simpa using hr)]
    simp
  have hkp_get : ∀ (r : ℕ) (hr : r < (keptIndices boxes probs t).length),
      kp.getD r [] = probs.getD (keptIndices boxes probs t)[r] [] := by
    intro r hr
    rw [hkp, List.getD_eq_getElem _ _ (by simpa using hr)]
    simp
  have hpw_iou := keptIndices_pairwise_iou boxes probs t
  have hpw_key := keptIndices_pairwise_key boxes probs t
  have hv2 : validInput kb kp t := by
    refine ⟨by rw [hlen_kb, hlen_kp], hv.2.1, ?_⟩
    intro p hp
    rw [hkp] at hp
    obtain ⟨i, hi, rfl⟩ := List.mem_map.mp hp
    have hilt : i < probs.length := keptIndices_mem_lt boxes probs t i hi
    rw [List.getD_eq_getElem _ _ hilt]
    exact hv.2.2 _ (List.getElem_mem hilt)
  have hsorted2 : (List.range kp.length).Pairwise
      (fun i j => objectness (kp.getD j []) ≤ objectness (kp.getD i [])) := by
    rw [List.pairwise_iff_getElem]
    intro p q hp hq hpq
    rw [List.length_range] at hp hq
    simp only [List.getElem_range]
    have hp' : p < (keptIndices boxes probs t).length := hlen_kp ▸ hp
    have hq' : q < (keptIndices boxes probs t).length := hlen_kp ▸ hq
    rw [hkp_get p hp', hkp_get q hq']
    rcases List.pairwise_iff_getElem.mp hpw_key p q hp' hq' hpq with h' | h'
    · exact h'.le
    · exact h'.1.ge
  have hpw2_iou : (List.range kp.length).Pairwise
      (fun i j => iou (kb.getD i dRect) (kb.getD j dRect) ≤ t) := by
    rw [List.pairwise_iff_getElem]
    intro p q hp hq hpq
    rw [List.length_range] at hp hq
    simp only [List.getElem_range]
    have hp' : p < (keptIndices boxes probs t).length := hlen_kp ▸ hp
    have hq' : q < (keptIndices boxes probs t).length := hlen_kp ▸ hq
    rw [hkb_get p hp', hkb_get q hq']
    exact List.pairwise_iff_getElem.mp hpw_iou p q hp' hq' hpq
  have hkept2 : keptIndices kb kp t = List.range kp.length := by
    unfold keptIndices nmsKeep
    rw [sortDesc_fix _ _ hsorted2]
    exact nmsKeepFuel_of_pairwise _ _ _ _ (le_refl _) hpw2_iou
  rw [nms_ok_iff]
  refine ⟨hv2, ?_, ?_⟩
  · rw [hkept2]
    have hl : kp.length = kb.length := by rw [hlen_kp, hlen_kb]
    rw [hl, map_getD_range]
  · rw [hkept2, map_getD_range]

/-- Witness for C1: a concrete accepted two-box input; the two kept boxes
have IoU at most 1/2, and a pair with IoU exactly 1/2 survives a pass. -/
theorem nms_kept_pairwise_iou_witness :
    iou (([⟨2, 2, 3, 3⟩, ⟨0, 0, 1, 1⟩] : List Rect).getD 0 dRect)
        (([⟨2, 2, 3, 3⟩, ⟨0, 0, 1, 1⟩] : List Rect).getD 1 dRect) ≤ 1 / 2 ∧
      survives (1 / 2) ⟨0, 0, 1, 1⟩ ⟨0, 0, 1, 2⟩ = true := by
  have h := nms_kept_pairwise_iou [⟨0, 0, 1, 1⟩, ⟨2, 2, 3, 3⟩]
    [[1 / 2, 1 / 2], [1, 0]] (1 / 2) [⟨2, 2, 3, 3⟩, ⟨0, 0, 1, 1⟩]
    [[1, 0], [1 / 2, 1 / 2]]
    (by norm_num [non_maximum_suppression, validInput, keptIndices, nmsKeep,
      nmsKeepFuel, sortDesc, insertDesc, objectness, survives, iou, unionArea,
      interArea, area, List.range_succ, List.filter])
  exact ⟨h.1 0 1 (by norm_num) (by norm_num) (by norm_num),
    h.2 ⟨0, 0, 1, 1⟩ ⟨0, 0, 1, 2⟩
      (by norm_num [iou, unionArea, interArea, area])⟩

/-- Witness for C3: the empty input with threshold 2 is rejected. -/
theorem nms_invalid_input_iff_witness :
    non_maximum_suppression [] [] 2 = Except.error NmsError.invalidInput :=
  (nms_invalid_input_iff [] [] 2).1.mpr (Or.inr (Or.inl (by norm_num)))

/-- Witness for C4: on a concrete accepted input the kept boxes are the
projection of the input boxes at the kept indices. -/
theorem nms_output_projection_witness :
    ([dRect] : List Rect) =
      (keptIndices [dRect] [[1]] 1).map
        (fun i => ([dRect] : List Rect).getD i dRect) :=
  (nms_output_projection [dRect] [[1]] 1 [dRect] [[1]]
    (by norm_num [non_maximum_suppression, validInput, keptIndices, nmsKeep,
      nmsKeepFuel, sortDesc, insertDesc, objectness, List.range_succ])).1

/-- Witness for C7: re-running NMS on the output of a concrete two-box run
returns that output unchanged. -/
theorem nms_idempotent_witness :
    non_maximum_suppression [⟨2, 2, 3, 3⟩, ⟨0, 0, 1, 1⟩]
        [[1, 0], [1 / 2, 1 / 2]] (1 / 2) =
      Except.ok ([⟨2, 2, 3, 3⟩, ⟨0, 0, 1, 1⟩], [[1, 0], [1 / 2, 1 / 2]]) :=
  nms_idempotent [⟨0, 0, 1, 1⟩, ⟨2, 2, 3, 3⟩] [[1 / 2, 1 / 2], [1, 0]] (1 / 2)
    [⟨2, 2, 3, 3⟩, ⟨0, 0, 1, 1⟩] [[1, 0], [1 / 2, 1 / 2]]
    (by norm_num [non_maximum_suppression, validInput, keptIndices, nmsKeep,
      nmsKeepFuel, sortDesc, insertDesc, objectness, survives, iou, unionArea,
      interArea, area, List.range_succ, List.filter])

/-- C9: the fixture checker accepts a candidate IoU function exactly when
its result on the fixture has length 4 and every entry is within 1e-6 of
the ground truth 2/3, 1/9, 0, 0; in every other case it returns false. -/
theorem check_batch_iou_iff (fn : Rect → List Rect → List ℚ) :
    check_batch_iou fn = true ↔
      ((fn fixtureReference fixtureBoxes).length = 4 ∧
        |(fn fixtureReference fixtureBoxes).getD 0 0 - 2 / 3| ≤ 1e-6 ∧
        |(fn fixtureReference fixtureBoxes).getD 1 0 - 1 / 9| ≤ 1e-6 ∧
        |(fn fixtureReference fixtureBoxes).getD 2 0 - 0| ≤ 1e-6 ∧
        |(fn fixtureReference fixtureBoxes).getD 3 0 - 0| ≤ 1e-6) := by
  unfold check_batch_iou
  show (if (fn fixtureReference fixtureBoxes).length = 4 then
      (List.range 4).all fun i =>
        decide (|(fn fixtureReference fixtureBoxes).getD i 0 - iou_gt.getD i 0| ≤ 1e-6)
    else false) = true ↔ _
  split
  · rename_i hlen
    simp only [List.range_succ, List.range_zero, List.nil_append,
      List.cons_append, List.all_cons, List.all_nil, Bool.and_true,
      Bool.and_eq_true, decide_eq_true_eq, iou_gt, List.getD]
    constructor
    · rintro ⟨h0, h1, h2, h3⟩
      exact ⟨hlen, by simpa using h0, by simpa using h1, by simpa using h2,
        by simpa using h3⟩
    · rintro ⟨-, h0, h1, h2, h3⟩
      exact ⟨by simpa using h0, by simpa using h1, by simpa using h2,
        by simpa using h3⟩
  · rename_i hlen
    simp only [Bool.false_eq_true, false_iff]
    rintro ⟨h, -⟩
    exact hlen h

theorem maxVal_mem : ∀ p : List ℚ, p ≠ [] → maxVal p ∈ p
  | [], h => absurd rfl h
  | [x], _ => by simp [maxVal]
  | x :: y :: l, _ => by
    simp only [maxVal]
    rcases le_total x (maxVal (y :: l)) with h | h
    · rw [max_eq_right h]
      exact List.mem_cons_of_mem x (maxVal_mem (y :: l) (by simp))
    · rw [max_eq_left h]
      exact List.mem_cons_self x _

theorem maxWithIdx_eq : ∀ p : List ℚ, p ≠ [] →
    maxWithIdx p = some (maxVal p, argmaxIdx p)
  | [], h => absurd rfl h
  | [x], _ => by simp [maxWithIdx, maxVal, argmaxIdx, List.findIdx_cons]
  | x :: y :: l, _ => by
    rw [maxWithIdx, maxWithIdx_eq (y :: l) (by simp)]
    show (if x < maxVal (y :: l) then some (maxVal (y :: l), argmaxIdx (y :: l) + 1)
      else some (x, 0)) = some (maxVal (x :: y :: l), argmaxIdx (x :: y :: l))
    rcases lt_or_le x (maxVal (y :: l)) with hx | hx
    · rw [if_pos hx]
      have hmax : maxVal (x :: y :: l) = maxVal (y :: l) := by
        simp only [maxVal]
        exact max_eq_right hx.le
      have harg : argmaxIdx (x :: y :: l) = argmaxIdx (y :: l) + 1 := by
        simp [argmaxIdx, hmax, List.findIdx_cons, hx.ne]
      rw [hmax, harg]
    · rw [if_neg (not_lt.mpr hx)]
      have hmax : maxVal (x :: y :: l) = x := by
        simp only [maxVal]
        exact max_eq_left hx
      have harg : argmaxIdx (x :: y :: l) = 0 := by
        simp [argmaxIdx, hmax, List.findIdx_cons]
      rw [hmax, harg]

theorem rendered_iff (p : List ℚ) (hp : p ≠ []) :
    rendered p = true ↔
      (CONFIDENCE_THRESHOLD ≤ maxVal p ∧ argmaxIdx p ≠ 91) := by
  unfold rendered
  rw [maxWithIdx_eq p hp]
  show (if maxVal p < CONFIDENCE_THRESHOLD then false
    else if argmaxIdx p = 91 then false else true) = true ↔ _
  constructor
  · intro hr
    split_ifs at hr with h1 h2
    exact ⟨not_lt.mp h1, h2⟩
  · rintro ⟨hs, hl⟩
    rw [if_neg (not_lt.mpr hs), if_neg hl]

theorem argmaxIdx_lt_length (p : List ℚ) (hp : p ≠ []) :
    argmaxIdx p < p.length := by
  unfold argmaxIdx
  apply List.findIdx_lt_length_of_exists
  exact ⟨maxVal p, maxVal_mem p hp, by simp⟩

/-- C10: draw_boxes draws a detection exactly when the maximum entry of its
probability vector is at least CONFIDENCE_THRESHOLD and the first index
attaining the maximum is not the hard-coded literal 91; vectors with at most
91 entries can therefore never be skipped as background. -/
theorem draw_boxes_iff (boxes : List Rect) (probs : List (List ℚ))
    (p : List ℚ) (b : Rect) (hp : p ≠ []) :
    ((p, b) ∈ draw_boxes boxes probs ↔
      ((p, b) ∈ probs.zip boxes ∧
        CONFIDENCE_THRESHOLD ≤ maxVal p ∧ argmaxIdx p ≠ 91)) ∧
    (p.length ≤ 91 →
      ((p, b) ∈ draw_boxes boxes probs ↔
        ((p, b) ∈ probs.zip boxes ∧ CONFIDENCE_THRESHOLD ≤ maxVal p))) := by
  have hmem : (p, b) ∈ draw_boxes boxes probs ↔
      ((p, b) ∈ probs.zip boxes ∧ rendered p = true) := by
    unfold draw_boxes
    rw [List.mem_filter]
  have hiff := rendered_iff p hp
  constructor
  · rw [hmem, hiff]
  · intro hlen
    have h91 : argmaxIdx p ≠ 91 := by
      have := argmaxIdx_lt_length p hp
      omega
    rw [hmem, hiff]
    tauto

/-- Witness for C10: a length-1 vector with probability 1 is drawn. -/
theorem draw_boxes_iff_witness :
    (([1] : List ℚ), dRect) ∈ draw_boxes [dRect] [[1]] :=
  (draw_boxes_iff [dRect] [[1]] [1] dRect (by simp)).1.mpr
    ⟨by simp, by norm_num [CONFIDENCE_THRESHOLD, maxVal],
      by norm_num [argmaxIdx, maxVal, List.findIdx_cons]⟩

end Yolos
